import Mathlib

/-!
Verification of the mcircuit gate algebra and BLIF parser front-end.

This file shallowly embeds the Rust sources (`src/lib.rs`, `src/io_extractors.rs`,
`src/translatable.rs`, `src/identity.rs`, `src/parsers/mod.rs`, `src/parsers/blif.rs`)
into Lean and proves properties of the embedded definitions.

Conventions of the embedding:
* Rust `usize` wire identifiers become `Nat` (no arithmetic that can overflow is
  performed on them by the embedded code paths).
* Rust `u64` wire values become `Nat`; the embedded code only compares them with
  the literals 0 and 1 and otherwise carries them along without inspection.
* Rust iterators passed to `construct`/`translate` become `List Nat`; the
  iterator's `next()` is the head of the remaining list.
* A Rust `panic!`/`unwrap`/`expect` is modelled by returning `none` from an
  `Option`-valued function; `Option.bind` propagates the panic.
* The per-index `next()` bodies of `InputIterator`/`OutputIterator` (which match
  on `self.index`) are embedded as functions `Nat → Option Nat` from the index to
  the yielded item.
-/

namespace Mcircuit

/-- Wire identifiers (`usize` in the source). -/
abbrev Wire := Nat

/-- Embeds `Operation<T>` from the `AssertZero` lineage of the source
(`src/io_extractors.rs`, `src/translatable.rs`, `src/identity.rs`):
`Input`, `Random`, `Add`, `AddConst`, `Sub`, `SubConst`, `Mul`, `MulConst`,
`AssertZero`, `Const`. -/
inductive Operation (T : Type) : Type where
  | Input : Wire → Operation T
  | Random : Wire → Operation T
  | Add : Wire → Wire → Wire → Operation T
  | AddConst : Wire → Wire → T → Operation T
  | Sub : Wire → Wire → Wire → Operation T
  | SubConst : Wire → Wire → T → Operation T
  | Mul : Wire → Wire → Wire → Operation T
  | MulConst : Wire → Wire → T → Operation T
  | AssertZero : Wire → Operation T
  | Const : Wire → T → Operation T
  deriving DecidableEq, Repr

/-- Embeds `CombineOperation` from `src/lib.rs` as used by `src/io_extractors.rs` and
`src/translatable.rs`: GF2 (boolean) and Z64 (64-bit) sub-gates plus the two
structural pseudo-gates `B2A(dst, low)` and `SizeHint(z64, gf2)`. -/
inductive CombineOperation : Type where
  | GF2 : Operation Bool → CombineOperation
  | Z64 : Operation Nat → CombineOperation
  | B2A : Wire → Wire → CombineOperation
  | SizeHint : Nat → Nat → CombineOperation
  deriving DecidableEq, Repr

namespace Operation

/-- Body of `<InputIterator<'a, Operation<T>> as Iterator>::next` from
`src/io_extractors.rs` (lines 25–92), as a function of the iterator's index. -/
def inputNth {T : Type} (op : Operation T) (index : Nat) : Option Wire :=
  match op with
  | .Input _ => none
  | .Random _ => none
  | .Sub _ a b => if index = 0 then some a else if index = 1 then some b else none
  | .SubConst _ a _ => if index = 0 then some a else none
  | .Add _ a b => if index = 0 then some a else if index = 1 then some b else none
  | .AddConst _ a _ => if index = 0 then some a else none
  | .Mul _ a b => if index = 0 then some a else if index = 1 then some b else none
  | .MulConst _ a _ => if index = 0 then some a else none
  | .AssertZero a => if index = 0 then some a else none
  | .Const _ _ => none

/-- Body of `<OutputIterator<'a, Operation<T>> as Iterator>::next` from
`src/io_extractors.rs` (lines 94–167), as a function of the iterator's index. -/
def outputNth {T : Type} (op : Operation T) (index : Nat) : Option Wire :=
  match op with
  | .Input a => if index = 0 then some a else none
  | .Random a => if index = 0 then some a else none
  | .Sub a _ _ => if index = 0 then some a else none
  | .SubConst a _ _ => if index = 0 then some a else none
  | .Add a _ _ => if index = 0 then some a else none
  | .AddConst a _ _ => if index = 0 then some a else none
  | .Mul a _ _ => if index = 0 then some a else none
  | .MulConst a _ _ => if index = 0 then some a else none
  | .AssertZero _ => none
  | .Const a _ => if index = 0 then some a else none

/-- The finite sequence yielded by a gate's input iterator
(`gate.inputs().collect()` in the source). -/
def inputList {T : Type} (op : Operation T) : List Wire :=
  match op with
  | .Input _ => []
  | .Random _ => []
  | .Sub _ a b => [a, b]
  | .SubConst _ a _ => [a]
  | .Add _ a b => [a, b]
  | .AddConst _ a _ => [a]
  | .Mul _ a b => [a, b]
  | .MulConst _ a _ => [a]
  | .AssertZero a => [a]
  | .Const _ _ => []

/-- The finite sequence yielded by a gate's output iterator
(`gate.outputs().collect()` in the source). -/
def outputList {T : Type} (op : Operation T) : List Wire :=
  match op with
  | .Input a => [a]
  | .Random a => [a]
  | .Sub a _ _ => [a]
  | .SubConst a _ _ => [a]
  | .Add a _ _ => [a]
  | .AddConst a _ _ => [a]
  | .Mul a _ _ => [a]
  | .MulConst a _ _ => [a]
  | .AssertZero _ => []
  | .Const a _ => [a]

end Operation

namespace CombineOperation

/-- Body of `<InputIterator<'a, CombineOperation> as Iterator>::next` from
`src/io_extractors.rs` (lines 169–188). -/
def inputNth (op : CombineOperation) (index : Nat) : Option Wire :=
  match op with
  | .GF2 op => op.inputNth index
  | .Z64 op => op.inputNth index
  | .B2A _ base => if index < 64 then some (base + index) else none
  | .SizeHint _ _ => none

/-- Body of `<OutputIterator<'a, CombineOperation> as Iterator>::next` from
`src/io_extractors.rs` (lines 190–209). -/
def outputNth (op : CombineOperation) (index : Nat) : Option Wire :=
  match op with
  | .GF2 op => op.outputNth index
  | .Z64 op => op.outputNth index
  | .B2A a _ => if index = 0 then some a else none
  | .SizeHint _ _ => none

/-- The finite sequence yielded by `CombineOperation::inputs()`. -/
def inputList (op : CombineOperation) : List Wire :=
  match op with
  | .GF2 op => op.inputList
  | .Z64 op => op.inputList
  | .B2A _ base => (List.range 64).map (base + ·)
  | .SizeHint _ _ => []

/-- The finite sequence yielded by `CombineOperation::outputs()`. -/
def outputList (op : CombineOperation) : List Wire :=
  match op with
  | .GF2 op => op.outputList
  | .Z64 op => op.outputList
  | .B2A a _ => [a]
  | .SizeHint _ _ => []

end CombineOperation

/-- The gate-shape tag `OpType<T>`. The `Input`, `InputConst`, `Binary`,
`BinaryConst` shapes and the shape sending one input and a constant to a gate
(`OutputConst`, used by `AssertConst` in the other lineage) are embedded from
`src/lib.rs`; the `Output` shape (one input, no output, no constant) is
Modelled from the spec: the variant is referenced from
`src/translatable.rs` (`OpType::Output(Operation::AssertZero)`) but its
declaration and `construct` arm are not among the sources, so it is filled in
from §4.1's shape list, drawing exactly one input wire. -/
inductive OpType (T : Type) : Type where
  | Input : (Wire → Operation T) → OpType T
  | InputConst : (Wire → T → Operation T) → OpType T
  | Output : (Wire → Operation T) → OpType T
  | OutputConst : (Wire → T → Operation T) → OpType T
  | Binary : (Wire → Wire → Wire → Operation T) → OpType T
  | BinaryConst : (Wire → Wire → T → Operation T) → OpType T

namespace Operation

/-- Embeds `Operation::construct` from `src/lib.rs` (lines 85–120): builds a gate from
a shape tag, input/output wire iterators and an optional constant. Each
`.expect(...)` (too-short iterator or missing constant) is modelled by `none`. -/
def construct {T : Type} (ty : OpType T) (inputs outputs : List Wire)
    (constant : Option T) : Option (Operation T) :=
  match ty with
  | .Input op => outputs.head?.map op
  | .InputConst op =>
      match outputs.head?, constant with
      | some o, some c => some (op o c)
      | _, _ => none
  | .Output op => inputs.head?.map op
  | .OutputConst op =>
      match inputs.head?, constant with
      | some i, some c => some (op i c)
      | _, _ => none
  | .Binary op =>
      match outputs.head?, inputs.head?, inputs.tail.head? with
      | some o, some i0, some i1 => some (op o i0 i1)
      | _, _, _ => none
  | .BinaryConst op =>
      match outputs.head?, inputs.head?, constant with
      | some o, some i, some c => some (op o i c)
      | _, _, _ => none

/-- Embeds `<Operation<T> as Translatable>::translate` from `src/translatable.rs`
(lines 55–125). The Rust function returns `Option<Self>` and may panic inside
`construct`; the outer `Option` layer models the panic (`none` = panic), the
inner one is the Rust return value. -/
def translate {T : Type} (op : Operation T) (win wout : List Wire) :
    Option (Option (Operation T)) :=
  match op with
  | .Input _ => (construct (.Input .Input) win wout none).map some
  | .Random _ => (construct (.Input .Random) win wout none).map some
  | .Add _ _ _ => (construct (.Binary .Add) win wout none).map some
  | .AddConst _ _ c => (construct (.BinaryConst .AddConst) win wout (some c)).map some
  | .Sub _ _ _ => (construct (.Binary .Sub) win wout none).map some
  | .SubConst _ _ c => (construct (.BinaryConst .SubConst) win wout (some c)).map some
  | .Mul _ _ _ => (construct (.Binary .Mul) win wout none).map some
  | .MulConst _ _ c => (construct (.BinaryConst .MulConst) win wout (some c)).map some
  | .AssertZero _ => (construct (.Output .AssertZero) win wout none).map some
  | .Const _ c => (construct (.InputConst .Const) win wout (some c)).map some

end Operation

namespace CombineOperation

/-- Embeds `<CombineOperation as Translatable>::translate` from `src/translatable.rs`
(lines 127–150). `GF2`/`Z64` translate the wrapped gate and `.expect` the
result (a `None` from the inner translate would panic); `B2A` draws one output
and one input wire (`.expect` = panic when exhausted); `SizeHint` returns
`None` without panicking. Outer `none` = panic, inner layer = Rust `Option`. -/
def translate (op : CombineOperation) (win wout : List Wire) :
    Option (Option CombineOperation) :=
  match op with
  | .GF2 g =>
      match g.translate win wout with
      | some (some g') => some (some (.GF2 g'))
      | some none => none
      | none => none
  | .Z64 g =>
      match g.translate win wout with
      | some (some g') => some (some (.Z64 g'))
      | some none => none
      | none => none
  | .B2A _ _ =>
      match wout.head?, win.head? with
      | some o, some i => some (some (.B2A o i))
      | _, _ => none
  | .SizeHint _ _ => some none

end CombineOperation

/-- Embeds `<Operation<bool> as Identity<bool>>::is_identity` from `src/identity.rs`
(lines 25–33): `AddConst`/`SubConst` with constant `false` (GF2 zero) or
`MulConst` with constant `true` (GF2 one). -/
def isIdentityBool (op : Operation Bool) : Bool :=
  match op with
  | .AddConst _ _ c => !c
  | .SubConst _ _ c => !c
  | .MulConst _ _ c => c
  | _ => false

/-- Embeds `<Operation<bool> as Identity<bool>>::identity` from `src/identity.rs`
(lines 35–37). -/
def identityBool (wOut wIn : Wire) : Operation Bool :=
  .AddConst wOut wIn false

/-- Embeds `<Operation<u64> as Identity<u64>>::is_identity` from `src/identity.rs`
(lines 55–62): `AddConst`/`SubConst` with `c.is_zero()` or `MulConst` with
`c.is_one()` (u64 values embedded as `Nat`). -/
def isIdentityU64 (op : Operation Nat) : Bool :=
  match op with
  | .AddConst _ _ c => c == 0
  | .SubConst _ _ c => c == 0
  | .MulConst _ _ c => c == 1
  | _ => false

/-- Embeds `<Operation<u64> as Identity<u64>>::identity` from `src/identity.rs`
(lines 65–67). -/
def identityU64 (wOut wIn : Wire) : Operation Nat :=
  .AddConst wOut wIn 0

/-- Embeds `<CombineOperation as Identity<bool>>::is_identity` from `src/identity.rs`
(lines 85–91): delegates to the wrapped GF2 gate, `false` for everything else
(`Z64`, `B2A`, `SizeHint`). -/
def isIdentityCombineBool (op : CombineOperation) : Bool :=
  match op with
  | .GF2 g => isIdentityBool g
  | _ => false

/-- Embeds `<CombineOperation as Identity<bool>>::identity` from `src/identity.rs`
(lines 93–95). -/
def identityCombineBool (wOut wIn : Wire) : CombineOperation :=
  .GF2 (identityBool wOut wIn)

/-! ### String primitives

Rust's `str` operations used by the parser, embedded over `List Char` so that
everything reduces in the kernel. -/

/-- Rust `s.split(c)`: splits on every occurrence of the character, keeping
empty segments (`"".split(c)` yields one empty segment). -/
def splitChar (c : Char) : List Char → List (List Char)
  | [] => [[]]
  | x :: xs =>
      if x = c then [] :: splitChar c xs
      else
        match splitChar c xs with
        | t :: ts => (x :: t) :: ts
        | [] => [[x]]

/-- Rust `s.trim()` (the parser only ever feeds it ASCII whitespace). -/
def trimChars (l : List Char) : List Char :=
  ((l.dropWhile Char.isWhitespace).reverse.dropWhile Char.isWhitespace).reverse

/-- Embeds `line.trim().split(' ')` from `clean_parse`: one line into whitespace-split
tokens. -/
def tokenize (s : String) : List String :=
  (splitChar ' ' (trimChars s.data)).map List.asString

/-- Rust `s.starts_with(p)`. -/
def strStartsWith (s p : String) : Bool :=
  p.data.isPrefixOf s.data

/-- Rust `s.split('[').next().unwrap()`: the text before the first `'['`
(the whole string when there is none). -/
def preBracket (s : String) : String :=
  (s.data.takeWhile (· ≠ '[')).asString

/-- Rust `usize::from_str` on a digit sequence: optional leading `'+'`, then at
least one decimal digit. `none` models a parse error. -/
def parseDigits : List Char → Option Nat
  | [] => none
  | l => l.foldlM (fun acc c => if c.isDigit then some (acc * 10 + (c.toNat - 48)) else none) 0

/-- Rust `s.parse::<usize>()`. -/
def parseUsize (s : String) : Option Nat :=
  match s.data with
  | '+' :: rest => parseDigits rest
  | l => parseDigits l

/-- Rust `usize::from_str_radix(s, 2)`: optional leading `'+'`, then at least
one binary digit. -/
def parseBinDigits : List Char → Option Nat
  | [] => none
  | l => l.foldlM
      (fun acc c =>
        if c = '0' then some (acc * 2)
        else if c = '1' then some (acc * 2 + 1)
        else none) 0

/-- Rust `usize::from_str_radix(value, 2)` as used by the `.attr` arm. -/
def parseBin (s : String) : Option Nat :=
  match s.data with
  | '+' :: rest => parseBinDigits rest
  | l => parseBinDigits l

/-! ### Wire Identity Registry (`WireHasher`, `src/parsers/mod.rs` lines 76–91)

The Rust struct keeps `HashMap<u64-hash, dense-id>` where the dense id is the
map's size at insertion time.  The map is embedded as the list of hash keys in
insertion order (the id of a key is its position), and `DefaultHasher` is a
parameter `h : String → Nat`: the source trusts the 64-bit hash to be
collision-free, which theorems below take as an explicit hypothesis. -/

/-- Insertion-ordered key list standing for the `hashes` map. -/
abbrev HState := List Nat

/-- Position of a key in the insertion-ordered key list. -/
def keyIndex : HState → Nat → Option Nat
  | [], _ => none
  | k :: ks, x => if k = x then some 0 else (keyIndex ks x).map (· + 1)

/-- Embeds `WireHasher::get_wire_id`: hash the name; an existing key returns its
stored id, a fresh key is assigned `hashes.len()` and inserted. -/
def getWireId (h : String → Nat) (st : HState) (name : String) : Wire × HState :=
  match keyIndex st (h name) with
  | some i => (i, st)
  | none => (st.length, st ++ [h name])

/-- Runs a sequence of `get_wire_id` calls, returning the ids in call order and
the final registry state. -/
def runHasher (h : String → Nat) (st : HState) : List String → List Wire × HState
  | [] => ([], st)
  | n :: ns =>
      let p := getWireId h st n
      let q := runHasher h p.2 ns
      (p.1 :: q.1, q.2)

/-- Ids produced by a call sequence started on a fresh `WireHasher`. -/
def wireIds (h : String → Nat) (names : List String) : List Wire :=
  (runHasher h [] names).1

/-- Interns a list of names in order, threading the registry state (the shape
of every loop in the parser that maps names to ids). -/
def internNames (h : String → Nat) (st : HState) : List String → List Wire × HState
  | [] => ([], st)
  | n :: ns =>
      let p := getWireId h st n
      let q := internNames h p.2 ns
      (p.1 :: q.1, q.2)

/-- First-occurrence deduplication with an accumulator. -/
def firstOccAux (acc : List String) : List String → List String
  | [] => acc
  | n :: ns => firstOccAux (if n ∈ acc then acc else acc ++ [n]) ns

/-- The distinct names of a call sequence in first-seen order. -/
def firstOcc (l : List String) : List String :=
  firstOccAux [] l

/-! ### BLIF parser (`src/parsers/blif.rs`)

The parser is specialized to `T = bool` (`BlifParser<bool>`), the instantiation
exercised by the BLIF pipeline; `HashMap<String, usize>` fields are embedded as
association lists with first-match lookup. -/

/-- Embeds `BlifSubcircuitDesc`: resolved `(parent_wire, child_wire)` id pairs. -/
structure BlifSubcircuitDesc where
  name : String := ""
  connections : List (Wire × Wire) := []
  deriving DecidableEq, Repr

/-- Embeds `PackedSubcircuitDesc`: string-keyed connections plus the `.attr`-declared
packed widths. -/
structure PackedSubcircuitDesc where
  name : String := ""
  connections : List (String × String) := []
  packed_wires : List (String × Nat) := []
  deriving DecidableEq, Repr

/-- Embeds `BlifCircuitDesc<bool>`: one finalized module. -/
structure BlifCircuitDesc where
  name : String := ""
  inputs : List Wire := []
  outputs : List Wire := []
  gates : List (Operation Bool) := []
  subcircuits : List BlifSubcircuitDesc := []
  deriving DecidableEq, Repr

/-- Embeds `PackedBlifCircuitDesc<bool>`: the in-progress module, still keyed by wire
names. -/
structure PackedBlifCircuitDesc where
  name : String := ""
  inputs : List String := []
  outputs : List String := []
  gates : List (Operation Bool) := []
  subcircuits : List BlifSubcircuitDesc := []
  packed_wires : List (String × Nat) := []
  deriving DecidableEq, Repr

/-- Embeds `HashMap::get` on an association list (first match). -/
def mapGet (m : List (String × Nat)) (k : String) : Option Nat :=
  match m with
  | [] => none
  | (k', v) :: rest => if k' = k then some v else mapGet rest k

/-- Embeds `HashMap::insert` on an association list: overwrite an existing key,
append a fresh one. -/
def mapInsert (m : List (String × Nat)) (k : String) (v : Nat) : List (String × Nat) :=
  match m with
  | [] => [(k, v)]
  | (k', v') :: rest => if k' = k then (k, v) :: rest else (k', v') :: mapInsert rest k v

/-- Embeds `parse_split` (`src/parsers/blif.rs` lines 13–16): the first two
`'='`-separated pieces; `none` models the `unwrap` panic when `'='` is
missing. -/
def parseSplit (s : String) : Option (String × String) :=
  match splitChar '=' s.data with
  | a :: b :: _ => some (a.asString, b.asString)
  | _ => none

/-- Embeds `parse_gate` (lines 18–24): opcode, output wire (right side of the last
token), and the input wires (right sides of the middle tokens). -/
def parseGate (line : List String) : Option (String × String × List String) :=
  match line with
  | [] => none
  | op :: rest => do
      let last ← rest.getLast?
      let (_, out) ← parseSplit last
      let inputs ← rest.dropLast.mapM (fun part => (parseSplit part).map (·.2))
      some (op, out, inputs)

/-- One round of `parse_io`'s outer loop body, with fuel for termination (each
round consumes at least the first token, so `line.length` rounds suffice). -/
def parseIoAux : Nat → List String → List (List String)
  | 0, _ => []
  | _, [] => []
  | fuel + 1, line@(t :: _) =>
      let startToken := preBracket t
      let chunk := line.takeWhile (fun s => strStartsWith s startToken)
      chunk :: parseIoAux fuel (line.drop chunk.length)

/-- Embeds `parse_io` (lines 26–38): groups consecutive tokens into chunks; a chunk is
the maximal run of tokens that `starts_with` the text before `'['` of its first
token. -/
def parseIo (line : List String) : List (List String) :=
  parseIoAux line.length line

/-- Embeds `parse_subcircuit` (lines 40–45): child-module name plus the
`child_pin=parent_wire` pairs. -/
def parseSubcircuit (line : List String) : Option (String × List (String × String)) :=
  match line with
  | [] => none
  | name :: rest => (rest.mapM parseSplit).map (fun io => (name, io))

/-- Embeds `get_base_name_and_width` (lines 47–62): `base[idx]` decomposes to
`(base, idx)`, a bare name to `(name, 0)`; `none` models the panic on a `'['`
not followed by `']'`-terminated digits. -/
def getBaseNameAndWidth (unparsed : String) : Option (String × Nat) :=
  if '[' ∈ unparsed.data then
    let before := (unparsed.data.takeWhile (· ≠ '[')).asString
    let after := (unparsed.data.dropWhile (· ≠ '[')).tail
    if ']' ∈ after then
      (parseUsize (after.takeWhile (· ≠ ']')).asString).map (fun idx => (before, idx))
    else none
  else some (unparsed, 0)

/-- Embeds `format_wire_id` (lines 64–70): module-scope qualification, with the two
boolean literals left global. -/
def formatWireId (context id : String) : String :=
  if id = "$true" ∨ id = "$false" then id else context ++ "::" ++ id

/-- Embeds `format!("{}[{}]", base, i)` as used when expanding packed wires. -/
def fmtIndexed (base : String) (i : Nat) : String :=
  base ++ "[" ++ Nat.repr i ++ "]"

/-- The inner `for i in (0..*width)` loop of
`PackedBlifCircuitDesc::add_subcircuit` (lines 106–121): one packed connection
`(parent, sub)` becomes `width` bit-connections, the `i`-th joining parent bit
`packed_idx_parent * width + i` to child bit `packed_idx_sub * width + i`. -/
def expandPacked (h : String → Nat) (st : HState) (baseParent : String)
    (idxParent : Nat) (baseSub : String) (idxSub : Nat) (width : Nat) :
    List (Wire × Wire) × HState :=
  (List.range width).foldl
    (fun acc i =>
      let p := getWireId h acc.2 (fmtIndexed baseParent (idxParent * width + i))
      let q := getWireId h p.2 (fmtIndexed baseSub (idxSub * width + i))
      (acc.1 ++ [(p.1, q.1)], q.2))
    ([], st)

/-- The `for (parent, sub) in packed_sub.connections` loop of `add_subcircuit`
(lines 98–162), threading the accumulated bit-connections, the parent module's
`packed_wires` map, and the wire registry.  `none` models the three panics
(malformed bus name, conflicting recorded width, a packed wire touching an
unpacked gate). -/
def addSubcircuitLoop (h : String → Nat) (gates : List (Operation Bool))
    (pwSub : List (String × Nat)) :
    List (String × String) → List (Wire × Wire) → List (String × Nat) → HState →
    Option (List (Wire × Wire) × List (String × Nat) × HState)
  | [], conns, pw, st => some (conns, pw, st)
  | (parent, sub) :: rest, conns, pw, st => do
      let (baseParent, idxParent) ← getBaseNameAndWidth parent
      let (baseSub, idxSub) ← getBaseNameAndWidth sub
      match mapGet pwSub baseSub with
      | some width =>
          let expanded := expandPacked h st baseParent idxParent baseSub idxSub width
          let pw' ←
            match mapGet pw baseParent with
            | none => some (mapInsert pw baseParent width)
            | some ew => if ew = width then some pw else none
          let pr := getWireId h expanded.2 parent
          if gates.any (fun g => g.outputList.contains pr.1) then none
          else if gates.any (fun g => g.inputList.contains pr.1) then none
          else addSubcircuitLoop h gates pwSub rest (conns ++ expanded.1) pw' pr.2
      | none =>
          let p := getWireId h st parent
          let q := getWireId h p.2 sub
          addSubcircuitLoop h gates pwSub rest (conns ++ [(p.1, q.1)]) pw q.2

/-- Embeds `PackedBlifCircuitDesc::add_subcircuit` (lines 92–165): resolves one
staged subcircuit record into id-keyed connections and pushes it onto the
module's subcircuit list. -/
def addSubcircuit (h : String → Nat) (desc : PackedBlifCircuitDesc)
    (packedSub : PackedSubcircuitDesc) (st : HState) :
    Option (PackedBlifCircuitDesc × HState) :=
  match addSubcircuitLoop h desc.gates packedSub.packed_wires
      packedSub.connections [] desc.packed_wires st with
  | none => none
  | some (conns, pw, st') =>
      some ({ desc with
                subcircuits := desc.subcircuits ++ [⟨packedSub.name, conns⟩],
                packed_wires := pw }, st')

/-- Embeds `<BlifParser<bool> as CanConstructVariant<bool>>::constant_from_str`
(lines 354–362): the two literals, then Rust's `bool::from_str`. -/
def constantFromStrBool (s : String) : Option Bool :=
  if s = "$false" then some false
  else if s = "$true" then some true
  else if s = "true" then some true
  else if s = "false" then some false
  else none

/-- Embeds `<BlifParser<bool> as CanConstructVariant<bool>>::construct_variant`
(lines 305–352): opcode mnemonic to gate, via `Operation::construct`; `none`
models the `unimplemented!` panic on unknown mnemonics and any `construct`
panic. -/
def constructVariantBool (op : String) (out : Wire) (inputs : List Wire)
    (cons : Option Bool) : Option (Operation Bool) :=
  if op = "AND" ∨ op = "MUL" then
    Operation.construct (.Binary .Mul) inputs [out] none
  else if op = "XOR" ∨ op = "ADD" then
    Operation.construct (.Binary .Add) inputs [out] none
  else if op = "NOT" ∨ op = "INV" then
    Operation.construct (.BinaryConst .AddConst) inputs [out] (some true)
  else if op = "BUF" then
    Operation.construct (.BinaryConst .AddConst) inputs [out] (some false)
  else if op = "RAND" then
    Operation.construct (.Input .Random) inputs [out] none
  else if op = "CONST" then
    Operation.construct (.InputConst .Const) inputs [out] cons
  else none

/-- One name of the module's `.inputs`/`.outputs` list, unpacked by the
`From<(PackedBlifCircuitDesc<T>, &mut WireHasher)>` conversion (lines 255–303):
a name whose base is packed with width `w` expands to bits
`base[idx*w + (w-1)], …, base[idx*w + 0]` (the `(0..*width).rev()` loop),
otherwise it is interned as-is. -/
def unpackIOName (h : String → Nat) (packed : List (String × Nat)) (st : HState)
    (name : String) : Option (List Wire × HState) := do
  let (base, idx) ← getBaseNameAndWidth name
  match mapGet packed base with
  | none => some ([(getWireId h st name).1], (getWireId h st name).2)
  | some width =>
      some (internNames h st
        (((List.range width).reverse).map (fun i => fmtIndexed base (idx * width + i))))

/-- The I/O-unpacking loop of the `From` conversion, over a whole name list. -/
def unpackIOList (h : String → Nat) (packed : List (String × Nat)) (st : HState) :
    List String → Option (List Wire × HState)
  | [] => some ([], st)
  | name :: rest => do
      let (ids, st1) ← unpackIOName h packed st name
      let (ids', st2) ← unpackIOList h packed st1 rest
      some (ids ++ ids', st2)

/-- Embeds `From<(PackedBlifCircuitDesc<T>, &mut WireHasher)> for BlifCircuitDesc<T>`
(lines 255–303): unpack the module's I/O names into ids, keep everything
else. -/
def toBlifCircuitDesc (h : String → Nat) (packed : PackedBlifCircuitDesc)
    (st : HState) : Option (BlifCircuitDesc × HState) := do
  let (ins, st1) ← unpackIOList h packed.packed_wires st packed.inputs
  let (outs, st2) ← unpackIOList h packed.packed_wires st1 packed.outputs
  some ({ name := packed.name, inputs := ins, outputs := outs,
          gates := packed.gates, subcircuits := packed.subcircuits }, st2)

/-- The mutable state of `BlifParser::clean_parse`'s line loop. -/
structure ParserState where
  hasher : HState
  current : PackedBlifCircuitDesc
  currentSub : Option PackedSubcircuitDesc
  circuits : List BlifCircuitDesc
  deriving DecidableEq, Repr

/-- The two constant gates pushed as the seed of every module
(`construct_variant("CONST", 0, &[], Some(false))` and its `$true` twin,
lines 461–473 and 580–609). -/
def seedGates : Option (List (Operation Bool)) := do
  let c0 ← constantFromStrBool "$false"
  let g0 ← constructVariantBool "CONST" 0 [] (some c0)
  let c1 ← constantFromStrBool "$true"
  let g1 ← constructVariantBool "CONST" 1 [] (some c1)
  some [g0, g1]

/-- The preamble of `clean_parse` (lines 454–473): reserve ids 0/1 for
`$false`/`$true` (the two `assert_eq!` calls; `none` models their failure) and
seed the first module with the two constant gates. -/
def initParserState (h : String → Nat) : Option ParserState := do
  let p := getWireId h [] "$false"
  if p.1 ≠ 0 then none else
  let q := getWireId h p.2 "$true"
  if q.1 ≠ 1 then none else do
  let gs ← seedGates
  some { hasher := q.2, current := { gates := gs }, currentSub := none, circuits := [] }

/-- One iteration of the `for line in reader` loop of `clean_parse`
(lines 475–614): tokenize the line and dispatch on the leading directive.
`none` models every panic reachable from the loop body. -/
def stepLine (h : String → Nat) (s : ParserState) (line : String) :
    Option ParserState :=
  match tokenize line with
  | [] => some s
  | cmd :: rest =>
    if cmd = ".model" then do
      let name ← rest.head?
      some { s with current := { s.current with name := name } }
    else if cmd = ".inputs" then
      let formatted := ((parseIo rest).map
        (fun chunk => chunk.reverse.map (formatWireId s.current.name))).flatten
      some { s with current := { s.current with inputs := s.current.inputs ++ formatted } }
    else if cmd = ".outputs" then
      let formatted := ((parseIo rest).map
        (fun chunk => chunk.reverse.map (formatWireId s.current.name))).flatten
      some { s with current := { s.current with outputs := s.current.outputs ++ formatted } }
    else if cmd = ".gate" then do
      let (op, out, inputs) ← parseGate rest
      let pOut := getWireId h s.hasher (formatWireId s.current.name out)
      let pIns := internNames h pOut.2 (inputs.map (formatWireId s.current.name))
      let g ← constructVariantBool op pOut.1 pIns.1 none
      some { s with hasher := pIns.2,
                    current := { s.current with gates := s.current.gates ++ [g] } }
    else if cmd = ".subckt" then do
      let (cur, st) ←
        match s.currentSub with
        | some subc => addSubcircuit h s.current subc s.hasher
        | none => some (s.current, s.hasher)
      let (name, ioPairings) ← parseSubcircuit rest
      let conns := ioPairings.map
        (fun pq => (formatWireId cur.name pq.2, formatWireId name pq.1))
      some { s with hasher := st, current := cur,
                    currentSub := some { name := name, connections := conns } }
    else if cmd = ".attr" then do
      let name ← rest.head?
      let value ← rest.tail.head?
      if name = "module_not_derived" then some s
      else if name = "src" then some s
      else if name = "_packing" then
        if value = "\"gf2\"" then some s else none
      else do
        let width ← parseBin value
        match s.currentSub with
        | some subc =>
            some { s with currentSub := some { subc with
              packed_wires := mapInsert subc.packed_wires
                (formatWireId subc.name name) width } }
        | none => some s
    else if cmd = ".names" ∨ cmd = ".conn" then do
      let fromName ← rest.head?
      let toName ← rest.tail.getLast?
      let pFrom := getWireId h s.hasher (formatWireId s.current.name fromName)
      let pTo := getWireId h pFrom.2 (formatWireId s.current.name toName)
      let g ← constructVariantBool "BUF" pTo.1 [pFrom.1] none
      some { s with hasher := pTo.2,
                    current := { s.current with gates := s.current.gates ++ [g] } }
    else if cmd = ".end" then do
      let (cur, st) ←
        match s.currentSub with
        | some subc => addSubcircuit h s.current subc s.hasher
        | none => some (s.current, s.hasher)
      let gs ← seedGates
      if cur.gates = [] ∧ cur.subcircuits = [] then
        -- `println!("Warning: Dropping empty module {}", ...)` and recycle
        some { hasher := st, current := { gates := gs }, currentSub := none,
               circuits := s.circuits }
      else do
        let (desc, st') ← toBlifCircuitDesc h cur st
        some { hasher := st', current := { gates := gs }, currentSub := none,
               circuits := s.circuits ++ [desc] }
    else some s

/-- Embeds `BlifParser::<bool>::clean_parse` over a fresh parser (lines 447–616): the
preamble followed by the line loop.  The emitted module descriptors are
collected in `circuits` in `.end` order. -/
def cleanParse (h : String → Nat) (lines : List String) : Option ParserState := do
  let init ← initParserState h
  lines.foldlM (stepLine h) init

/-- A concrete collision-free stand-in for `DefaultHasher`, used to evaluate
the model on concrete inputs: the name's characters as digits of a base-2³²
numeral (distinct strings get distinct values). -/
def hEnc (s : String) : Nat :=
  s.data.foldl (fun acc c => acc * 4294967296 + (c.toNat + 1)) 0

/-- The name pairs interned by the packed-connection expansion loop, written
out directly: the `i`-th pair joins parent bit `idxParent * width + i` to child
bit `idxSub * width + i` (both sides enumerate bits ascending, in lock-step). -/
def namePairs (baseParent : String) (idxParent : Nat) (baseSub : String)
    (idxSub : Nat) (width : Nat) : List (String × String) :=
  (List.range width).map
    (fun i => (fmtIndexed baseParent (idxParent * width + i),
               fmtIndexed baseSub (idxSub * width + i)))

/-- Interns a list of name pairs left-to-right (first component, then second),
threading the registry state. -/
def internPairs (h : String → Nat) (st : HState) :
    List (String × String) → List (Wire × Wire) × HState
  | [] => ([], st)
  | (p, s) :: rest =>
      let a := getWireId h st p
      let b := getWireId h a.2 s
      let q := internPairs h b.2 rest
      ((a.1, b.1) :: q.1, q.2)

/-- First-occurrence index of a string in a list (`None` when absent). -/
def strIdx : List String → String → Option Nat
  | [], _ => none
  | s :: ss, x => if s = x then some 0 else (strIdx ss x).map (· + 1)

/-! ### Theorems -/

/-- The materialized lists agree pointwise with the iterator `next` bodies:
position `i` of `inputList` is exactly what the source iterator yields at
index `i`. -/
theorem operation_inputList_agree {T : Type} (op : Operation T) (i : Nat) :
    (op.inputList).get? i = op.inputNth i := by
  cases op <;> match i with
    | 0 => rfl
    | 1 => rfl
    | (n+2) => simp [Operation.inputList, Operation.inputNth]

/-- Output-side agreement between the materialized list and the iterator
body. -/
theorem operation_outputList_agree {T : Type} (op : Operation T) (i : Nat) :
    (op.outputList).get? i = op.outputNth i := by
  cases op <;> match i with
    | 0 => rfl
    | (n+1) => simp [Operation.outputList, Operation.outputNth]

/-- Agreement between the materialized `CombineOperation` input list and the
iterator body. -/
theorem combine_inputList_agree (op : CombineOperation) (i : Nat) :
    (op.inputList).get? i = op.inputNth i := by
  cases op with
  | GF2 g => exact operation_inputList_agree g i
  | Z64 g => exact operation_inputList_agree g i
  | B2A a base =>
      simp only [CombineOperation.inputList, CombineOperation.inputNth]
      by_cases h : i < 64
      · simp [List.get?_eq_getElem?, List.getElem?_map, List.getElem?_range, h]
      · rw [List.get?_eq_getElem?, List.getElem?_map,
          List.getElem?_eq_none (by simpa using h)]
        simp [h]
  | SizeHint a b => simp [CombineOperation.inputList, CombineOperation.inputNth]

/-- Agreement between the materialized `CombineOperation` output list and the
iterator body. -/
theorem combine_outputList_agree (op : CombineOperation) (i : Nat) :
    (op.outputList).get? i = op.outputNth i := by
  cases op with
  | GF2 g => exact operation_outputList_agree g i
  | Z64 g => exact operation_outputList_agree g i
  | B2A a base => match i with
    | 0 => rfl
    | (n+1) => simp [CombineOperation.outputList, CombineOperation.outputNth]
  | SizeHint a b => simp [CombineOperation.outputList, CombineOperation.outputNth]

/-- C5: for every `CombineOperation::B2A(dst, low)`, the input iterator yields
exactly the 64 wires `low, low+1, …, low+63` in ascending order and then ends,
and the output iterator yields exactly `dst` and then ends. -/
theorem b2a_io_sequences (dst low : Wire) :
    (∀ i, i < 64 → (CombineOperation.B2A dst low).inputNth i = some (low + i)) ∧
    (∀ i, 64 ≤ i → (CombineOperation.B2A dst low).inputNth i = none) ∧
    (CombineOperation.B2A dst low).inputList = (List.range 64).map (low + ·) ∧
    (CombineOperation.B2A dst low).outputNth 0 = some dst ∧
    (∀ i, 0 < i → (CombineOperation.B2A dst low).outputNth i = none) ∧
    (CombineOperation.B2A dst low).outputList = [dst] := by
  refine ⟨fun i hi => ?_, fun i hi => ?_, rfl, rfl, fun i hi => ?_, rfl⟩
  · simp [CombineOperation.inputNth, hi]
  · simp [CombineOperation.inputNth, Nat.not_lt.mpr hi]
  · simp [CombineOperation.outputNth, Nat.pos_iff_ne_zero.mp hi]

/-- C5 witness: the last yielded input of `B2A(5, 7)` is wire `70`. -/
theorem b2a_io_sequences_witness :
    (CombineOperation.B2A 5 7).inputNth 63 = some 70 :=
  (b2a_io_sequences 5 7).1 63 (by decide)

/-- C7: `SizeHint` is never translatable — `translate` returns `None` (the
inner `Option` of the embedding, without panicking) for every pair `(a, b)`
and every choice of wire iterators — and both of its I/O iterators are
empty. -/
theorem sizehint_untranslatable_and_no_io (a b : Nat) :
    (∀ win wout : List Wire,
        (CombineOperation.SizeHint a b).translate win wout = some none) ∧
    (∀ i, (CombineOperation.SizeHint a b).inputNth i = none) ∧
    (CombineOperation.SizeHint a b).inputList = [] ∧
    (∀ i, (CombineOperation.SizeHint a b).outputNth i = none) ∧
    (CombineOperation.SizeHint a b).outputList = [] :=
  ⟨fun _ _ => rfl, fun _ => rfl, rfl, fun _ => rfl, rfl⟩

/-- C8: `is_identity` holds exactly for `AddConst`/`SubConst` with the
domain's zero constant and `MulConst` with the domain's one, in each of the
three embedded trait implementations (GF2, Z64, and `CombineOperation` under
the boolean domain, where every non-GF2 variant — `Z64`, `B2A`, `SizeHint` —
is never an identity). -/
theorem is_identity_characterization :
    (∀ g : Operation Bool, isIdentityBool g = true ↔
        ∃ d s, g = .AddConst d s false ∨ g = .SubConst d s false ∨
          g = .MulConst d s true) ∧
    (∀ g : Operation Nat, isIdentityU64 g = true ↔
        ∃ d s, g = .AddConst d s 0 ∨ g = .SubConst d s 0 ∨ g = .MulConst d s 1) ∧
    (∀ c : CombineOperation, isIdentityCombineBool c = true ↔
        ∃ d s, c = .GF2 (.AddConst d s false) ∨ c = .GF2 (.SubConst d s false) ∨
          c = .GF2 (.MulConst d s true)) := by
  refine ⟨fun g => ?_, fun g => ?_, fun c => ?_⟩
  · cases g <;> simp [isIdentityBool]
  · cases g <;> simp [isIdentityU64]
  · cases c with
    | GF2 g => cases g <;> simp [isIdentityCombineBool, isIdentityBool]
    | Z64 g => simp [isIdentityCombineBool]
    | B2A x y => simp [isIdentityCombineBool]
    | SizeHint x y => simp [isIdentityCombineBool]

/-- C10: the canonical identity gate between two wires is
`AddConst(w_out, w_in, zero)` in both embedded domains; it passes
`is_identity`, its single input wire is `w_in` and its single output wire is
`w_out`. -/
theorem identity_constructor_canonical (wOut wIn : Wire) :
    identityBool wOut wIn = .AddConst wOut wIn false ∧
    isIdentityBool (identityBool wOut wIn) = true ∧
    (identityBool wOut wIn).inputList = [wIn] ∧
    (identityBool wOut wIn).outputList = [wOut] ∧
    identityU64 wOut wIn = .AddConst wOut wIn 0 ∧
    isIdentityU64 (identityU64 wOut wIn) = true ∧
    (identityU64 wOut wIn).inputList = [wIn] ∧
    (identityU64 wOut wIn).outputList = [wOut] ∧
    identityCombineBool wOut wIn = .GF2 (.AddConst wOut wIn false) ∧
    isIdentityCombineBool (identityCombineBool wOut wIn) = true :=
  ⟨rfl, rfl, rfl, rfl, rfl, rfl, rfl, rfl, rfl, rfl⟩

/-- C9: `parse_io` groups by a `starts_with` test against the text before
`'['` of the chunk's first token, not by base-name equality: `"XY"` has a
different base name than `"X[0]"` yet is absorbed into its chunk, and the
`.inputs` registration then reverses the whole chunk together. -/
theorem parse_io_prefix_absorption :
    parseIo ["X[0]", "XY"] = [["X[0]", "XY"]] ∧
    preBracket "XY" ≠ preBracket "X[0]" ∧
    ((parseIo ["X[0]", "XY"]).map
        (fun chunk => chunk.reverse.map (formatWireId "M"))).flatten
      = ["M::XY", "M::X[0]"] := by
  refine ⟨by decide, by decide, by decide⟩

/-- C6 counterexample: the identity translation law fails on the `SizeHint`
variant of `CombineOperation` — translating `SizeHint(0, 0)` by its own
(empty) wire sequences returns `None`, not `Some(SizeHint(0, 0))`. -/
theorem translate_identity_law_counterexample :
    (CombineOperation.SizeHint 0 0).translate
        (CombineOperation.SizeHint 0 0).inputList
        (CombineOperation.SizeHint 0 0).outputList
      = some none ∧
    (CombineOperation.SizeHint 0 0).translate
        (CombineOperation.SizeHint 0 0).inputList
        (CombineOperation.SizeHint 0 0).outputList
      ≠ some (some (CombineOperation.SizeHint 0 0)) := by
  refine ⟨rfl, by decide⟩

/-- C6 (amended): translating a gate by its own input and output wire
sequences reproduces it exactly — `g.translate(g.inputs(), g.outputs()) ==
Some(g)` — for every variant of `Operation<T>` and every variant of
`CombineOperation` except the non-translatable `SizeHint`, whose `translate`
always returns `None`. -/
theorem translate_identity_law {T : Type} :
    (∀ g : Operation T, g.translate g.inputList g.outputList = some (some g)) ∧
    (∀ c : CombineOperation, (∀ a b, c ≠ .SizeHint a b) →
        c.translate c.inputList c.outputList = some (some c)) := by
  have hop : ∀ {S : Type} (g : Operation S),
      g.translate g.inputList g.outputList = some (some g) := by
    intro S g
    cases g <;> rfl
  refine ⟨fun g => hop g, fun c hc => ?_⟩
  cases c with
  | GF2 g => simp [CombineOperation.translate, CombineOperation.inputList,
      CombineOperation.outputList, hop g]
  | Z64 g => simp [CombineOperation.translate, CombineOperation.inputList,
      CombineOperation.outputList, hop g]
  | B2A dst low =>
      simp [CombineOperation.translate, CombineOperation.inputList,
        CombineOperation.outputList, List.range_succ_eq_map]
  | SizeHint a b => exact absurd rfl (hc a b)

/-- C6 witness: the amended law at the concrete gate `GF2(Add(0, 1, 2))`. -/
theorem translate_identity_law_witness :
    (CombineOperation.GF2 (.Add 0 1 2)).translate
        (CombineOperation.GF2 (.Add 0 1 2)).inputList
        (CombineOperation.GF2 (.Add 0 1 2)).outputList
      = some (some (CombineOperation.GF2 (.Add 0 1 2))) :=
  (translate_identity_law (T := Bool)).2 _ (by intro a b h; cases h)

/-- Interning pairs with a seed accumulator, as performed by a `foldl` whose
body pushes one id pair per element. -/
theorem foldl_intern_general (h : String → Nat) (f g : Nat → String)
    (l : List Nat) (acc : List (Wire × Wire)) (st : HState) :
    l.foldl (fun a i =>
        let p := getWireId h a.2 (f i)
        let q := getWireId h p.2 (g i)
        (a.1 ++ [(p.1, q.1)], q.2)) (acc, st)
      = (acc ++ (internPairs h st (l.map (fun i => (f i, g i)))).1,
         (internPairs h st (l.map (fun i => (f i, g i)))).2) := by
  induction l generalizing acc st with
  | nil => simp [internPairs]
  | cons i t ih =>
      simp only [List.foldl_cons, List.map_cons, internPairs]
      rw [ih]
      simp [internPairs]

/-- The packed-connection expansion loop is exactly the interning of the
ascending, lock-step name pairs. -/
theorem expandPacked_eq_internPairs (h : String → Nat) (st : HState)
    (baseParent : String) (idxParent : Nat) (baseSub : String) (idxSub : Nat)
    (width : Nat) :
    expandPacked h st baseParent idxParent baseSub idxSub width
      = internPairs h st (namePairs baseParent idxParent baseSub idxSub width) := by
  have := foldl_intern_general h
    (fun i => fmtIndexed baseParent (idxParent * width + i))
    (fun i => fmtIndexed baseSub (idxSub * width + i))
    (List.range width) [] st
  simpa [expandPacked, namePairs] using this

/-- Behaviour of `add_subcircuit` on one packed connection `(parent, sub)`
(child base packed with width `w`, parent base not yet recorded, no gates in
the parent module): it succeeds and pushes exactly the interned ascending
lock-step name pairs as the resolved connections. -/
theorem addSubcircuit_single_packed (h : String → Nat) (st : HState)
    (desc : PackedBlifCircuitDesc) (subName parent sub bp bs : String)
    (ip isub w : Nat) (pwSub : List (String × Nat))
    (hbp : getBaseNameAndWidth parent = some (bp, ip))
    (hbs : getBaseNameAndWidth sub = some (bs, isub))
    (hlook : mapGet pwSub bs = some w)
    (hpw : mapGet desc.packed_wires bp = none)
    (hgates : desc.gates = []) :
    addSubcircuit h desc ⟨subName, [(parent, sub)], pwSub⟩ st
      = some ({ desc with
                  subcircuits := desc.subcircuits ++
                    [⟨subName, (internPairs h st (namePairs bp ip bs isub w)).1⟩],
                  packed_wires := mapInsert desc.packed_wires bp w },
              (getWireId h (internPairs h st (namePairs bp ip bs isub w)).2
                parent).2) := by
  simp only [addSubcircuit, addSubcircuitLoop, hbp, hbs, hlook, hpw, hgates,
    expandPacked_eq_internPairs, Option.bind_some, Option.bind_eq_bind,
    List.any_nil, Bool.false_eq_true, if_false, List.nil_append]
  simp [hlook, hpw]

/-- C1 counterexample: with `P[0], P[1], C[0], C[1]` pre-interned as ids
`2, 3, 4, 5`, expanding the packed connection `P=C` (child `C` packed with
width 2) produces the connections `[(2, 4), (3, 5)]` — parent bit `P[0]`
paired with child bit `C[0]` and `P[1]` with `C[1]`, i.e. the two sides are
paired in the *same* ascending order, not the reverse pairing
`[(3, 4), (2, 5)]` the claim requires. -/
theorem subckt_packed_pairing_counterexample :
    (runHasher hEnc [] ["$false", "$true", "P[0]", "P[1]", "C[0]", "C[1]"]).1
      = [0, 1, 2, 3, 4, 5] ∧
    (addSubcircuit hEnc {} ⟨"S", [("P", "C")], [("C", 2)]⟩
        (runHasher hEnc [] ["$false", "$true", "P[0]", "P[1]", "C[0]", "C[1]"]).2).map
        (fun r => r.1.subcircuits.map (fun sc => sc.connections))
      = some [[(2, 4), (3, 5)]] ∧
    (addSubcircuit hEnc {} ⟨"S", [("P", "C")], [("C", 2)]⟩
        (runHasher hEnc [] ["$false", "$true", "P[0]", "P[1]", "C[0]", "C[1]"]).2).map
        (fun r => r.1.subcircuits.map (fun sc => sc.connections))
      ≠ some [[(3, 4), (2, 5)]] := by
  refine ⟨by decide, by decide, by decide⟩

/-- C1 (amended): a packed `.subckt` connection whose child base has width `w`
is expanded into exactly `w` bit-connections whose sub-wire indices on the two
sides are paired in the *same* ascending order: the `i`-th connection joins
parent bit `idx_parent*w + i` to child bit `idx_sub*w + i`. -/
theorem subckt_packed_expansion_same_order (h : String → Nat) (st : HState)
    (desc : PackedBlifCircuitDesc) (subName parent sub bp bs : String)
    (ip isub w : Nat) (pwSub : List (String × Nat))
    (hbp : getBaseNameAndWidth parent = some (bp, ip))
    (hbs : getBaseNameAndWidth sub = some (bs, isub))
    (hlook : mapGet pwSub bs = some w)
    (hpw : mapGet desc.packed_wires bp = none)
    (hgates : desc.gates = []) :
    addSubcircuit h desc ⟨subName, [(parent, sub)], pwSub⟩ st
      = some ({ desc with
                  subcircuits := desc.subcircuits ++
                    [⟨subName, (internPairs h st (namePairs bp ip bs isub w)).1⟩],
                  packed_wires := mapInsert desc.packed_wires bp w },
              (getWireId h (internPairs h st (namePairs bp ip bs isub w)).2
                parent).2) ∧
    (namePairs bp ip bs isub w).length = w ∧
    (∀ i, i < w → (namePairs bp ip bs isub w).get? i
        = some (fmtIndexed bp (ip * w + i), fmtIndexed bs (isub * w + i))) ∧
    (internPairs h st (namePairs bp ip bs isub w)).1.length = w := by
  have hlen : ∀ (ps : List (String × String)) (st' : HState),
      (internPairs h st' ps).1.length = ps.length := by
    intro ps
    induction ps with
    | nil => intro st'; rfl
    | cons p t ih => intro st'; simp [internPairs, ih]
  refine ⟨addSubcircuit_single_packed h st desc subName parent sub bp bs ip isub w
    pwSub hbp hbs hlook hpw hgates, by simp [namePairs], fun i hi => ?_, ?_⟩
  · simp [namePairs, List.get?_eq_getElem?, List.getElem?_map,
      List.getElem?_range, hi]
  · rw [hlen]
    simp [namePairs]

/-- C1 witness: the amended expansion at `P=C`, child width 2, from a fresh
registry. -/
theorem subckt_packed_expansion_same_order_witness :
    addSubcircuit hEnc {} ⟨"S", [("P", "C")], [("C", 2)]⟩ []
      = some ({ ({} : PackedBlifCircuitDesc) with
                  subcircuits := [⟨"S", (internPairs hEnc [] (namePairs "P" 0 "C" 0 2)).1⟩],
                  packed_wires := mapInsert [] "P" 2 },
              (getWireId hEnc (internPairs hEnc [] (namePairs "P" 0 "C" 0 2)).2 "P").2) :=
  (subckt_packed_expansion_same_order hEnc [] {} "S" "P" "C" "P" "C" 0 0 2
    [("C", 2)] (by decide) (by decide) (by decide) (by decide) rfl).1

/-- C4 counterexample: with `$false`/`$true` interned as ids 0/1, the packed
connection `$true=C` (child width 2) expands to connections
`[(2, 3), (4, 5)]`: the parent sides are the two *fresh, distinct* wires
`$true[0]` (id 2) and `$true[1]` (id 4), not a broadcast of the constant's
wire id 1. -/
theorem subckt_constant_broadcast_counterexample :
    (runHasher hEnc [] ["$false", "$true"]).1 = [0, 1] ∧
    (addSubcircuit hEnc {} ⟨"S", [("$true", "C")], [("C", 2)]⟩
        (runHasher hEnc [] ["$false", "$true"]).2).map
        (fun r => r.1.subcircuits.map (fun sc => sc.connections))
      = some [[(2, 3), (4, 5)]] ∧
    (getWireId hEnc (runHasher hEnc [] ["$false", "$true"]).2 "$true").1 = 1 ∧
    (getWireId hEnc (runHasher hEnc [] ["$false", "$true"]).2 "$true[0]").1 = 2 ∧
    (addSubcircuit hEnc {} ⟨"S", [("$true", "C")], [("C", 2)]⟩
        (runHasher hEnc [] ["$false", "$true"]).2).map
        (fun r => r.1.subcircuits.map (fun sc => sc.connections.map Prod.fst))
      ≠ some [[1, 1]] := by
  refine ⟨by decide, by decide, by decide, by decide, by decide⟩

/-- C4 (amended): a `.subckt` connection whose parent side is the literal
`$true` (resp. `$false`) and whose child base is packed with width `w` is not
broadcast and is not a width-mismatch error: it is expanded like any other
scalar parent name, into `w` connections whose parent sides are the interned
ids of the fresh per-bit names `$true[0] … $true[w-1]`. -/
theorem subckt_constant_parent_expansion (h : String → Nat) (st : HState)
    (desc : PackedBlifCircuitDesc) (subName sub bs : String) (isub w : Nat)
    (pwSub : List (String × Nat))
    (hbs : getBaseNameAndWidth sub = some (bs, isub))
    (hlook : mapGet pwSub bs = some w)
    (hpw : mapGet desc.packed_wires "$true" = none)
    (hgates : desc.gates = []) :
    addSubcircuit h desc ⟨subName, [("$true", sub)], pwSub⟩ st
      = some ({ desc with
                  subcircuits := desc.subcircuits ++
                    [⟨subName, (internPairs h st (namePairs "$true" 0 bs isub w)).1⟩],
                  packed_wires := mapInsert desc.packed_wires "$true" w },
              (getWireId h (internPairs h st (namePairs "$true" 0 bs isub w)).2
                "$true").2) ∧
    (namePairs "$true" 0 bs isub w).length = w ∧
    (∀ i, i < w → (namePairs "$true" 0 bs isub w).get? i
        = some (fmtIndexed "$true" i, fmtIndexed bs (isub * w + i))) := by
  refine ⟨addSubcircuit_single_packed h st desc subName "$true" sub "$true" bs 0
    isub w pwSub (by decide) hbs hlook hpw hgates, by simp [namePairs],
    fun i hi => ?_⟩
  simp [namePairs, List.get?_eq_getElem?, List.getElem?_map,
    List.getElem?_range, hi]

/-- C4 witness: the amended expansion at `$true=C`, child width 2. -/
theorem subckt_constant_parent_expansion_witness :
    addSubcircuit hEnc {} ⟨"S", [("$true", "C")], [("C", 2)]⟩ []
      = some ({ ({} : PackedBlifCircuitDesc) with
                  subcircuits :=
                    [⟨"S", (internPairs hEnc [] (namePairs "$true" 0 "C" 0 2)).1⟩],
                  packed_wires := mapInsert [] "$true" 2 },
              (getWireId hEnc (internPairs hEnc [] (namePairs "$true" 0 "C" 0 2)).2
                "$true").2) :=
  (subckt_constant_parent_expansion hEnc [] {} "S" "C" "C" 0 2 [("C", 2)]
    (by decide) (by decide) (by decide) rfl).1

/-- C2: parsing a module whose body is only `.model X` / `.end` does *not*
drop it — the module is pre-seeded with the two constant gates, so the
`gates.is_empty() && subcircuits.is_empty()` test in the `.end` arm can never
hold, and a descriptor for `X` (carrying exactly the two seeded `Const`
gates) is emitted. -/
theorem empty_module_is_emitted :
    (cleanParse hEnc [".model X", ".end"]).map (fun s => s.circuits)
      = some [{ name := "X", gates := [.Const 0 false, .Const 1 true] }] ∧
    (cleanParse hEnc [".model X", ".end"]).map
        (fun s => s.circuits.map (fun c => c.name))
      ≠ some [] := by
  refine ⟨by decide, by decide⟩

/-- A name's first-occurrence index is defined exactly when the name is in the
list. -/
theorem strIdx_isSome_iff_mem (x : String) (l : List String) :
    (strIdx l x).isSome ↔ x ∈ l := by
  induction l with
  | nil => simp [strIdx]
  | cons s ss ih =>
      by_cases hs : s = x
      · subst hs; simp [strIdx]
      · simp [strIdx, hs, ih, Ne.symm hs]

/-- Fact: `strIdx` points at an occurrence of the name. -/
theorem strIdx_get (x : String) (l : List String) (k : Nat)
    (hk : strIdx l x = some k) : l.get? k = some x := by
  induction l generalizing k with
  | nil => simp [strIdx] at hk
  | cons s ss ih =>
      by_cases hs : s = x
      · subst hs
        simp [strIdx] at hk
        subst hk
        rfl
      · simp [strIdx, hs] at hk
        obtain ⟨k', hk', rfl⟩ := hk
        simpa using ih k' hk'

/-- Fact: `strIdx` is bounded by the list length. -/
theorem strIdx_lt_length (x : String) (l : List String) (k : Nat)
    (hk : strIdx l x = some k) : k < l.length := by
  have := strIdx_get x l k hk
  exact List.get?_eq_some.mp this |>.1

/-- Looking up a member of the left part of an append ignores the right
part. -/
theorem strIdx_append_left (x : String) (l m : List String) (hx : x ∈ l) :
    strIdx (l ++ m) x = strIdx l x := by
  induction l with
  | nil => cases hx
  | cons s ss ih =>
      by_cases hs : s = x
      · subst hs; simp [strIdx]
      · have hx' : x ∈ ss := by
          cases hx with
          | head => exact absurd rfl hs
          | tail _ h => exact h
        simp [strIdx, hs, ih hx']

/-- A fresh name appended at the end is found at the old length. -/
theorem strIdx_append_fresh (x : String) (l : List String) (hx : x ∉ l) :
    strIdx (l ++ [x]) x = some l.length := by
  induction l with
  | nil => simp [strIdx]
  | cons s ss ih =>
      have hs : s ≠ x := fun h => hx (h ▸ List.mem_cons_self s ss)
      have hx' : x ∉ ss := fun h => hx (List.mem_cons_of_mem s h)
      simp [strIdx, hs, ih hx']

/-- On a duplicate-free list, `strIdx` inverts indexing. -/
theorem strIdx_of_nodup_get (l : List String) (k : Nat) (x : String)
    (hnd : l.Nodup) (hget : l.get? k = some x) : strIdx l x = some k := by
  induction l generalizing k with
  | nil => simp at hget
  | cons s ss ih =>
      match k with
      | 0 =>
          simp at hget
          subst hget
          simp [strIdx]
      | k + 1 =>
          have hmem : x ∈ ss := List.get?_mem (by simpa using hget)
          have hs : s ≠ x := fun h => (List.nodup_cons.mp hnd).1 (h ▸ hmem)
          simp [strIdx, hs, ih k (List.nodup_cons.mp hnd).2 (by simpa using hget)]

/-- When the hash separates the name from every list member, `keyIndex` over
the hashed keys agrees with the name-level first-occurrence index. -/
theorem keyIndex_map_eq_strIdx (h : String → Nat) (l : List String) (x : String)
    (hsep : ∀ y ∈ l, h y = h x → y = x) :
    keyIndex (l.map h) (h x) = strIdx l x := by
  induction l with
  | nil => rfl
  | cons s ss ih =>
      by_cases hs : s = x
      · subst hs; simp [keyIndex, strIdx]
      · have hne : h s ≠ h x := fun hcol =>
          hs (hsep s (List.mem_cons_self s ss) hcol)
        simp [keyIndex, strIdx, hs, hne,
          ih (fun y hy => hsep y (List.mem_cons_of_mem s hy))]

/-- Fact: `firstOccAux` over an append chains the accumulators. -/
theorem firstOccAux_append (acc : List String) (l m : List String) :
    firstOccAux acc (l ++ m) = firstOccAux (firstOccAux acc l) m := by
  induction l generalizing acc with
  | nil => rfl
  | cons n ns ih => simp [firstOccAux, ih]

/-- Membership in `firstOccAux`. -/
theorem mem_firstOccAux (x : String) (acc l : List String) :
    x ∈ firstOccAux acc l ↔ x ∈ acc ∨ x ∈ l := by
  induction l generalizing acc with
  | nil => simp [firstOccAux]
  | cons n ns ih =>
      by_cases hn : n ∈ acc
      · rw [firstOccAux, if_pos hn, ih]
        constructor
        · rintro (hx | hx)
          · exact Or.inl hx
          · exact Or.inr (List.mem_cons_of_mem n hx)
        · rintro (hx | hx)
          · exact Or.inl hx
          · cases List.mem_cons.mp hx with
            | inl he => exact Or.inl (he ▸ hn)
            | inr ht => exact Or.inr ht
      · rw [firstOccAux, if_neg hn, ih]
        simp [List.mem_append, List.mem_cons]
        tauto

/-- Fact: `firstOccAux` only ever extends its accumulator. -/
theorem firstOccAux_extends (acc l : List String) :
    ∃ r, firstOccAux acc l = acc ++ r := by
  induction l generalizing acc with
  | nil => exact ⟨[], by simp [firstOccAux]⟩
  | cons n ns ih =>
      by_cases hn : n ∈ acc
      · rw [firstOccAux, if_pos hn]
        exact ih acc
      · rw [firstOccAux, if_neg hn]
        obtain ⟨r, hr⟩ := ih (acc ++ [n])
        exact ⟨n :: r, by simp [hr]⟩

/-- Fact: `firstOccAux` preserves duplicate-freedom. -/
theorem firstOccAux_nodup (acc l : List String) (hnd : acc.Nodup) :
    (firstOccAux acc l).Nodup := by
  induction l generalizing acc with
  | nil => exact hnd
  | cons n ns ih =>
      by_cases hn : n ∈ acc
      · rw [firstOccAux, if_pos hn]
        exact ih acc hnd
      · rw [firstOccAux, if_neg hn]
        exact ih (acc ++ [n]) (by simp [List.nodup_append, hnd, hn])

/-- Fact: `runHasher` returns one id per call. -/
theorem runHasher_length (h : String → Nat) (st : HState) (names : List String) :
    (runHasher h st names).1.length = names.length := by
  induction names generalizing st with
  | nil => rfl
  | cons n ns ih => simp [runHasher, ih]

/-- Invariant of the wire registry: starting from the state reached after the
distinct names of `seen` (in first-seen order), processing `names` leaves the
state at the hashed first-occurrence list of `seen ++ names`, and the id
answered for the `i`-th call is the first-occurrence index of that name among
everything seen up to and including that call. Requires the hash to separate
all names involved. -/
theorem runHasher_spec (h : String → Nat) (names : List String) :
    ∀ seen : List String,
      (∀ a ∈ seen ++ names, ∀ b ∈ seen ++ names, h a = h b → a = b) →
      (runHasher h ((firstOcc seen).map h) names).2
          = (firstOcc (seen ++ names)).map h ∧
      ∀ i, i < names.length →
        strIdx (firstOcc (seen ++ names.take (i+1))) (names.getD i "")
          = some ((runHasher h ((firstOcc seen).map h) names).1.getD i 0) := by
  induction names with
  | nil =>
      intro seen _
      refine ⟨by simp [runHasher], fun i hi => by simp at hi⟩
  | cons n ns ih =>
      intro seen hinj
      have hsplit : seen ++ n :: ns = (seen ++ [n]) ++ ns := by simp
      have hsep : ∀ y ∈ firstOcc seen, h y = h n → y = n := by
        intro y hy hcol
        have hy' : y ∈ seen := by
          have := (mem_firstOccAux y [] seen).mp hy
          simpa using this
        exact hinj y (by simp [hy']) n (by simp) hcol
      have hkey : keyIndex ((firstOcc seen).map h) (h n) = strIdx (firstOcc seen) n :=
        keyIndex_map_eq_strIdx h (firstOcc seen) n hsep
      have hinj' : ∀ a ∈ (seen ++ [n]) ++ ns, ∀ b ∈ (seen ++ [n]) ++ ns,
          h a = h b → a = b := by
        rw [← hsplit]
        exact hinj
      by_cases hmem : n ∈ firstOcc seen
      · obtain ⟨i₀, hi₀⟩ := Option.isSome_iff_exists.mp
          ((strIdx_isSome_iff_mem n (firstOcc seen)).mpr hmem)
        have hfo : firstOcc (seen ++ [n]) = firstOcc seen := by
          rw [firstOcc, firstOccAux_append]
          simp only [firstOccAux]
          rw [if_pos (show n ∈ firstOccAux [] seen from hmem)]
          rfl
        have hgw : getWireId h ((firstOcc seen).map h) n
            = (i₀, (firstOcc seen).map h) := by
          simp [getWireId, hkey, hi₀]
        obtain ⟨ihst, ihids⟩ := ih (seen ++ [n]) hinj'
        rw [hfo] at ihst ihids
        refine ⟨?_, ?_⟩
        · rw [hsplit, ← ihst]
          simp [runHasher, hgw]
        · intro i hi
          match i with
          | 0 =>
              have hids0 : (runHasher h ((firstOcc seen).map h) (n :: ns)).1.getD 0 0
                  = i₀ := by simp [runHasher, hgw]
              rw [hids0]
              show strIdx (firstOcc (seen ++ [n])) n = some i₀
              rw [hfo]
              exact hi₀
          | (i + 1) =>
              have hi' : i < ns.length := by simpa using hi
              have hrec := ihids i hi'
              have hids : (runHasher h ((firstOcc seen).map h) (n :: ns)).1.getD (i + 1) 0
                  = (runHasher h ((firstOcc seen).map h) ns).1.getD i 0 := by
                simp [runHasher, hgw]
              rw [hids]
              have htake : seen ++ (n :: ns).take (i + 2)
                  = (seen ++ [n]) ++ ns.take (i + 1) := by simp
              rw [htake]
              simpa using hrec
      · have hnone : strIdx (firstOcc seen) n = none := by
          cases hcase : strIdx (firstOcc seen) n with
          | none => rfl
          | some k =>
              exact absurd ((strIdx_isSome_iff_mem n (firstOcc seen)).mp
                (by simp [hcase])) hmem
        have hfo : firstOcc (seen ++ [n]) = firstOcc seen ++ [n] := by
          rw [firstOcc, firstOccAux_append]
          simp only [firstOccAux]
          rw [if_neg (show n ∉ firstOccAux [] seen from hmem)]
          rfl
        have hgw : getWireId h ((firstOcc seen).map h) n
            = ((firstOcc seen).length, (firstOcc (seen ++ [n])).map h) := by
          simp [getWireId, hkey, hnone, hfo]
        obtain ⟨ihst, ihids⟩ := ih (seen ++ [n]) hinj'
        refine ⟨?_, ?_⟩
        · rw [hsplit, ← ihst]
          simp [runHasher, hgw]
        · intro i hi
          match i with
          | 0 =>
              have hids0 : (runHasher h ((firstOcc seen).map h) (n :: ns)).1.getD 0 0
                  = (firstOcc seen).length := by simp [runHasher, hgw]
              rw [hids0]
              show strIdx (firstOcc (seen ++ [n])) n = some (firstOcc seen).length
              rw [hfo]
              exact strIdx_append_fresh n (firstOcc seen) hmem
          | (i + 1) =>
              have hi' : i < ns.length := by simpa using hi
              have hrec := ihids i hi'
              have hids : (runHasher h ((firstOcc seen).map h) (n :: ns)).1.getD (i + 1) 0
                  = (runHasher h ((firstOcc (seen ++ [n])).map h) ns).1.getD i 0 := by
                simp [runHasher, hgw]
              rw [hids]
              have htake : seen ++ (n :: ns).take (i + 2)
                  = (seen ++ [n]) ++ ns.take (i + 1) := by simp
              rw [htake]
              simpa using hrec

/-- In-bounds `getD` is an honest lookup. -/
theorem getD_get? {α : Type} [Inhabited α] (l : List α) (i : Nat) (d : α)
    (hi : i < l.length) : l.get? i = some (l.getD i d) := by
  have h1 : l[i]? = some l[i] := List.getElem?_eq_getElem hi
  rw [List.get?_eq_getElem?, h1]
  simp [List.getD, h1]

/-- C3: on one `WireHasher` (with a hash that separates the queried names, the
operating assumption of the source), every already-interned name returns the
id of its first call, every fresh name receives the next unused dense id —
the number of distinct names seen so far — so ids are `0, 1, 2, …` in
first-call order with no gaps and no reuse, and distinct names always receive
distinct ids. -/
theorem wire_hasher_dense_ids (h : String → Nat) (names : List String)
    (hinj : ∀ a ∈ names, ∀ b ∈ names, h a = h b → a = b) :
    (wireIds h names).length = names.length ∧
    (∀ i, i < names.length →
        strIdx (firstOcc names) (names.getD i "")
          = some ((wireIds h names).getD i 0)) ∧
    (∀ i j, i < names.length → j < names.length →
        names.getD i "" = names.getD j "" →
        (wireIds h names).getD i 0 = (wireIds h names).getD j 0) ∧
    (∀ i, i < names.length → names.getD i "" ∉ names.take i →
        (wireIds h names).getD i 0 = (firstOcc (names.take i)).length) ∧
    (∀ i j, i < names.length → j < names.length →
        names.getD i "" ≠ names.getD j "" →
        (wireIds h names).getD i 0 ≠ (wireIds h names).getD j 0) ∧
    (∀ idv, idv ∈ wireIds h names ↔ idv < (firstOcc names).length) := by
  obtain ⟨hst, hids⟩ := runHasher_spec h names [] (by simpa using hinj)
  have hpre : ∀ i, i < names.length →
      strIdx (firstOcc (names.take (i + 1))) (names.getD i "")
        = some ((wireIds h names).getD i 0) := by
    intro i hi
    simpa [wireIds] using hids i hi
  have hlen : (wireIds h names).length = names.length := by
    simpa [wireIds] using runHasher_length h [] names
  have hglobal : ∀ i, i < names.length →
      strIdx (firstOcc names) (names.getD i "")
        = some ((wireIds h names).getD i 0) := by
    intro i hi
    have hp := hpre i hi
    have hdec : firstOcc names
        = firstOccAux (firstOcc (names.take (i + 1))) (names.drop (i + 1)) := by
      conv_lhs => rw [firstOcc, ← List.take_append_drop (i + 1) names,
        firstOccAux_append]
      rfl
    obtain ⟨r, hr⟩ :=
      firstOccAux_extends (firstOcc (names.take (i + 1))) (names.drop (i + 1))
    have hmem : names.getD i "" ∈ firstOcc (names.take (i + 1)) :=
      (strIdx_isSome_iff_mem _ _).mp (by rw [hp]; rfl)
    rw [hdec, hr, strIdx_append_left _ _ _ hmem]
    exact hp
  refine ⟨hlen, hglobal, ?_, ?_, ?_, ?_⟩
  · intro i j hi hj heq
    have h1 := hglobal i hi
    have h2 := hglobal j hj
    rw [heq] at h1
    rw [h1] at h2
    exact Option.some_injective _ h2
  · intro i hi hfresh
    have hp := hpre i hi
    have htake : names.take (i + 1) = names.take i ++ [names.getD i ""] := by
      rw [List.take_succ]
      have h1 : names[i]? = some (names.getD i "") := by
        rw [← List.get?_eq_getElem?]
        exact getD_get? names i "" hi
      rw [h1]
      rfl
    have hnm : names.getD i "" ∉ firstOcc (names.take i) := by
      intro hc
      exact hfresh (by simpa using (mem_firstOccAux _ [] _).mp hc)
    have hfo : firstOcc (names.take (i + 1))
        = firstOcc (names.take i) ++ [names.getD i ""] := by
      rw [htake, firstOcc, firstOccAux_append]
      simp only [firstOccAux]
      rw [if_neg (show names.getD i "" ∉ firstOccAux [] (names.take i) from hnm)]
      rfl
    rw [hfo, strIdx_append_fresh _ _ hnm] at hp
    exact (Option.some_injective _ hp).symm
  · intro i j hi hj hne heq
    have h1 := hglobal i hi
    have h2 := hglobal j hj
    rw [heq] at h1
    have g1 := strIdx_get (names.getD i "") (firstOcc names)
      ((wireIds h names).getD j 0) h1
    have g2 := strIdx_get (names.getD j "") (firstOcc names)
      ((wireIds h names).getD j 0) h2
    exact hne (Option.some_injective _ (g1.symm.trans g2))
  · intro idv
    constructor
    · intro hmem
      obtain ⟨i, hget⟩ := List.mem_iff_get?.mp hmem
      have hi : i < (wireIds h names).length := (List.get?_eq_some.mp hget).1
      have hgd : (wireIds h names).getD i 0 = idv := by
        have := getD_get? (wireIds h names) i 0 hi
        rw [hget] at this
        exact (Option.some_injective _ this).symm
      have := hglobal i (by omega)
      rw [hgd] at this
      exact strIdx_lt_length _ _ _ this
    · intro hlt
      have hnd : (firstOcc names).Nodup := firstOccAux_nodup [] names List.nodup_nil
      have hget : (firstOcc names).get? idv
          = some ((firstOcc names).getD idv "") := getD_get? _ _ _ hlt
      have hidx : strIdx (firstOcc names) ((firstOcc names).getD idv "")
          = some idv := strIdx_of_nodup_get _ _ _ hnd hget
      have hmemf : (firstOcc names).getD idv "" ∈ firstOcc names :=
        List.get?_mem hget
      have hmemn : (firstOcc names).getD idv "" ∈ names := by
        simpa using (mem_firstOccAux _ [] _).mp hmemf
      obtain ⟨i, hgi⟩ := List.mem_iff_get?.mp hmemn
      have hi : i < names.length := (List.get?_eq_some.mp hgi).1
      have hgd : names.getD i "" = (firstOcc names).getD idv "" := by
        have := getD_get? names i "" hi
        rw [hgi] at this
        exact (Option.some_injective _ this).symm
      have hg := hglobal i hi
      rw [hgd, hidx] at hg
      have : idv = (wireIds h names).getD i 0 := Option.some_injective _ hg
      rw [this]
      have hi' : i < (wireIds h names).length := by omega
      exact List.get?_mem (getD_get? (wireIds h names) i 0 hi')

/-- C3 witness: a concrete session `["$false", "$true", "a", "$false"]` under
a separating hash — the repeated `$false` gets its first id back. -/
theorem wire_hasher_dense_ids_witness :
    wireIds (fun s => s.length) ["$false", "$true", "a", "$false"]
        = [0, 1, 2, 0] ∧
    (wireIds (fun s => s.length) ["$false", "$true", "a", "$false"]).getD 3 0
      = (wireIds (fun s => s.length) ["$false", "$true", "a", "$false"]).getD 0 0 := by
  refine ⟨by decide, ?_⟩
  exact (wire_hasher_dense_ids (fun s => s.length)
    ["$false", "$true", "a", "$false"] (by decide)).2.2.1 3 0
    (by decide) (by decide) (by decide)

end Mcircuit
